import Mathlib

/-!
Shallow embedding of the Game of Life engine in `src/src/lib.rs`
(crate `wasm-game-of-life`, struct `Universe` backed by a
`fixedbitset::FixedBitSet`).

Modelling conventions:
* The bit buffer of the `FixedBitSet` is a `List Bool` (`false` = dead,
  `true` = alive).  the `Index` impl of `FixedBitSet` (`cells[idx]`) delegates to
  `contains`, which returns `false` for an out-of-bounds bit, so reads are
  modelled with `List.getD _ _ false`.  `FixedBitSet::set` panics when the
  bit is out of bounds, so writing operations that may go out of bounds
  return `Option` (`none` models the panic).
* `u32` / `usize` values are modelled as `Nat`; none of the arithmetic in
  the engine can overflow for buffers that actually fit in memory.
* `js_sys::Math::random() < 0.2` is an external entropy source; it is
  modelled by a caller-supplied `rng : Nat → Bool` giving, for each cell
  index, the outcome of that comparison.
* `fmt::Display for Universe` iterates `self.cells.as_slice()`, the raw
  machine words of the bitset (32-bit `usize` on the wasm32 target), so the
  rendering model exposes that word granularity faithfully.
-/

/-- Rust `const DEAD_CELL: bool = false;` -/
def DEAD_CELL : Bool := false

/-- Rust `const ALIVE_CELL: bool = true;` -/
def ALIVE_CELL : Bool := true

/-- The free function `pub fn toggle(cell: bool) -> bool` of `lib.rs`. -/
def toggle (cell : Bool) : Bool :=
  match cell with
  | false => ALIVE_CELL  -- DEAD_CELL => ALIVE_CELL
  | _ => DEAD_CELL

/-- Reading bit `i` of the bitset: the `Index`/`contains` of `FixedBitSet`
returns `false` when `i` is out of bounds. -/
def bitAt (cells : List Bool) (i : Nat) : Bool :=
  cells.getD i false

/-- Models `fn seed_cells(size: usize) -> FixedBitSet`: every cell is set from the
entropy source (`rng i` is the outcome of `js_sys::Math::random() < 0.2`
for cell `i`). -/
def seed_cells (size : Nat) (rng : Nat → Bool) : List Bool :=
  (List.range size).map (fun i => if rng i then ALIVE_CELL else DEAD_CELL)

/-- Models `pub struct Universe { width: u32, height: u32, cells: FixedBitSet,
size: usize }` -/
structure Universe where
  width : Nat
  height : Nat
  cells : List Bool
  size : Nat
deriving DecidableEq

/-- Models `fn get_index(&self, row: u32, column: u32) -> usize` -/
def Universe.get_index (u : Universe) (row column : Nat) : Nat :=
  row * u.width + column

/-- Models `fn live_neighbour_count(&self, row: u32, column: u32) -> u8`: folds over
the literal delta lists `[self.height - 1, 0, 1]` and
`[self.width - 1, 0, 1]`, skipping the pair whose entries are both zero. -/
def Universe.live_neighbour_count (u : Universe) (row column : Nat) : Nat :=
  [u.height - 1, 0, 1].foldl (fun count delta_row =>
    [u.width - 1, 0, 1].foldl (fun count delta_col =>
      if delta_row = 0 ∧ delta_col = 0 then count
      else
        let neighbour_row := (row + delta_row) % u.height
        let neighbour_col := (column + delta_col) % u.width
        let idx := u.get_index neighbour_row neighbour_col
        count + (bitAt u.cells idx).toNat) count) 0

/-- Models `pub fn new() -> Universe`: fixed 64×64 grid, randomly seeded. -/
def Universe.new (rng : Nat → Bool) : Universe :=
  { width := 64, height := 64, cells := seed_cells (64 * 64) rng
    size := 64 * 64 }

/-- The `match (cell, live_neighbours)` arms inside `Universe::tick`,
in source order. -/
def next_cell (cell : Bool) (live_neighbours : Nat) : Bool :=
  if cell = ALIVE_CELL ∧ live_neighbours < 2 then DEAD_CELL
  else if cell = ALIVE_CELL ∧ (live_neighbours = 2 ∨ live_neighbours = 3) then ALIVE_CELL
  else if cell = ALIVE_CELL ∧ 3 < live_neighbours then DEAD_CELL
  else if cell = DEAD_CELL ∧ live_neighbours = 3 then ALIVE_CELL
  else cell

/-- Models `pub fn tick(&mut self)`: clones the buffer, then for every
`(row, col)` in row-major order writes the rule result — computed from
the *old* buffer `self.cells` — into the clone, and finally commits the
clone. -/
def Universe.tick (u : Universe) : Universe :=
  let next := (List.range u.height).foldl (fun next row =>
    (List.range u.width).foldl (fun next col =>
      let idx := u.get_index row col
      let cell := bitAt u.cells idx
      let live_neighbours := u.live_neighbour_count row col
      next.set idx (next_cell cell live_neighbours)) next) u.cells
  { u with cells := next }

/-- Models `fn toggle(&mut self, row: u32, col: u32)` (the private method):
`self.cells.set(idx, toggle(self.cells[idx]))`.  `FixedBitSet::set` panics
when `idx` is out of bounds, modelled by `none`. -/
def Universe.toggleCell (u : Universe) (row col : Nat) : Option Universe :=
  let idx := u.get_index row col
  if idx < u.cells.length then
    some { u with cells := u.cells.set idx (toggle (bitAt u.cells idx)) }
  else none

/-- Models `pub fn draw(&mut self, map: JsValue)`: after deserialising to
`Vec<Vec<u32>>`, toggles `(p[0], p[1])` for each entry.  The unchecked
indexing `p[0]` / `p[1]` panics for entries of length `< 2` (modelled by
`Option.none` from `List.get?`), and `toggleCell` panics out of bounds. -/
def Universe.draw (u : Universe) (map : List (List Nat)) : Option Universe :=
  map.foldlM (fun u p => do
    let row ← p.get? 0
    let col ← p.get? 1
    u.toggleCell row col) u

/-- Models `pub fn clear(&mut self)`: a fresh `FixedBitSet::with_capacity(self.size)`
(all bits unset), every bit then explicitly set to `DEAD_CELL`. -/
def Universe.clear (u : Universe) : Universe :=
  let next := (List.range u.size).foldl (fun next i => next.set i DEAD_CELL)
    (List.replicate u.size false)
  { u with cells := next }

/-- Models `pub fn reset(&mut self)`: `self.cells = seed_cells(self.size)`. -/
def Universe.reset (u : Universe) (rng : Nat → Bool) : Universe :=
  { u with cells := seed_cells u.size rng }

/-- Models `pub fn get_cells(&self) -> &FixedBitSet` -/
def Universe.get_cells (u : Universe) : List Bool :=
  u.cells

/-- Models `pub fn set_cells(&mut self, cells: &[(u32, u32)])`: marks each given
coordinate alive through the unchecked `get_index`; `FixedBitSet::set`
panics (modelled by `none`) when the linear index is out of bounds. -/
def Universe.set_cells (u : Universe) (cells : List (Nat × Nat)) : Option Universe :=
  cells.foldlM (fun u rc =>
    let idx := u.get_index rc.1 rc.2
    if idx < u.cells.length then
      some { u with cells := u.cells.set idx ALIVE_CELL }
    else none) u

/-- Modelled from the spec: `set_width` is commented out in
`src/src/lib.rs` (lines 137–140), so no executable code decides its
behaviour.  Per the spec it updates the width, recomputes `size`, and
resets the cell buffer to all-Dead at the new size. -/
def Universe.set_width (u : Universe) (width : Nat) : Universe :=
  { u with
    width := width
    size := width * u.height
    cells := List.replicate (width * u.height) DEAD_CELL }

/-- Modelled from the spec: `set_height` is commented out in
`src/src/lib.rs` (lines 142–145), so no executable code decides its
behaviour.  Per the spec it updates the height, recomputes `size`, and
resets the cell buffer to all-Dead at the new size. -/
def Universe.set_height (u : Universe) (height : Nat) : Universe :=
  { u with
    height := height
    size := u.width * height
    cells := List.replicate (u.width * height) DEAD_CELL }

/-- Bits per machine word of `FixedBitSet::as_slice()` on the wasm32
target (`usize` is 32 bits there). -/
def wordBits : Nat := 32

/-- Value of one machine word assembled from its bits, least significant
bit first (bit `i` of the word is cell `i` of the chunk). -/
def wordVal (bits : List Bool) : Nat :=
  bits.foldr (fun b acc => b.toNat + 2 * acc) 0

/-- Structural worker for `chunksOf`: the fuel is an upper bound on the
number of chunks (each chunk takes at least one element, so the input's
length suffices); the fuel-exhausted arm is never reached from
`chunksOf`. -/
def chunksOfGo (k : Nat) : Nat → List α → List (List α)
  | _, [] => []
  | 0, l => [l]
  | fuel + 1, x :: xs => (x :: xs.take (k - 1)) :: chunksOfGo k fuel (xs.drop (k - 1))

/-- Split a list into consecutive chunks of `k` elements (the last chunk
may be shorter), like `slice::chunks`.  For `k = 0` the Rust `chunks` method
panics; callers guard that case. -/
def chunksOf (k : Nat) (l : List α) : List (List α) :=
  chunksOfGo k l.length l

/-- Models `FixedBitSet::as_slice()`: the machine words of the buffer. -/
def as_slice (cells : List Bool) : List Nat :=
  (chunksOf wordBits cells).map wordVal

/-- Models `impl fmt::Display for Universe` (and `pub fn render`): iterates
`self.cells.as_slice().chunks(self.width as usize)` — chunks of machine
*words*, one glyph per word (`◻` when the word equals `DEAD_CELL as usize`,
i.e. `0`, else `◼`), `"\n"` after each chunk.  `slice::chunks` panics when
its argument is `0`, so `width = 0` is modelled by `none`. -/
def Universe.render (u : Universe) : Option String :=
  if u.width = 0 then none
  else
    some (((chunksOf u.width (as_slice u.cells)).map (fun line =>
      String.mk (line.map (fun cell => if cell = 0 then '◻' else '◼')) ++ "\n")).foldl
        (fun s line => s ++ line) "")

/-- The neighbour notion of claim C1, written from the words of the spec: the count of
alive cells among the 8 toroidal neighbours `(row ± 1 mod height,
col ± 1 mod width)` of a cell, the position of the cell itself (delta `(0,0)`)
excluded; the delta `-1` is represented by the residue `height - 1`
(resp. `width - 1`).  Listed in the same row-major order the code visits
them, for ease of comparison. -/
def claim_neighbour_count (u : Universe) (row col : Nat) : Nat :=
  [(u.height - 1, u.width - 1), (u.height - 1, 0), (u.height - 1, 1),
   (0, u.width - 1), (0, 1),
   (1, u.width - 1), (1, 0), (1, 1)].foldl
    (fun count d =>
      count + (bitAt u.cells
        (u.get_index ((row + d.1) % u.height) ((col + d.2) % u.width))).toNat) 0

/-- One neighbour read of `live_neighbour_count`: the bit at
`((row + dr) mod height, (col + dc) mod width)`, as 0 or 1. -/
def lncTerm (u : Universe) (row col dr dc : Nat) : Nat :=
  (bitAt u.cells (u.get_index ((row + dr) % u.height) ((col + dc) % u.width))).toNat

/-- One loop-body step of `live_neighbour_count`: skip when both deltas
are the literal 0, otherwise add the bit of the neighbour. -/
def lncStep (u : Universe) (row col : Nat) (c : Nat) (dr dc : Nat) : Nat :=
  if dr = 0 ∧ dc = 0 then c else c + lncTerm u row col dr dc

/-- The invariant of C9: the buffer length and the cached `size` both
equal `width * height`. -/
def UniverseInv (u : Universe) : Prop :=
  u.cells.length = u.width * u.height ∧ u.size = u.width * u.height

/-- States reachable from construction through the public mutators.
`draw` and `set_cells` only produce a state when they do not panic. -/
inductive Reachable : Universe → Prop where
  | new_ (rng : Nat → Bool) : Reachable (Universe.new rng)
  | tick_ {u : Universe} : Reachable u → Reachable u.tick
  | clear_ {u : Universe} : Reachable u → Reachable u.clear
  | reset_ {u : Universe} (rng : Nat → Bool) : Reachable u → Reachable (u.reset rng)
  | draw_ {u u' : Universe} {m : List (List Nat)} :
      Reachable u → u.draw m = some u' → Reachable u'
  | set_cells_ {u u' : Universe} {cs : List (Nat × Nat)} :
      Reachable u → u.set_cells cs = some u' → Reachable u'

/-! ### Basic helper lemmas -/

theorem toggle_eq_not (b : Bool) : toggle b = !b := by
  cases b <;> rfl

theorem bitAt_set_self : ∀ (l : List Bool) (i : Nat) (v : Bool),
    i < l.length → bitAt (l.set i v) i = v := by
  intro l
  induction l with
  | nil => intro i v h; simp at h
  | cons a l ih =>
    intro i v h
    cases i with
    | zero => rfl
    | succ n =>
      have := ih n v (by simpa using h)
      simpa [bitAt] using this

theorem bitAt_set_ne : ∀ (l : List Bool) (i j : Nat) (v : Bool),
    i ≠ j → bitAt (l.set i v) j = bitAt l j := by
  intro l
  induction l with
  | nil => intro i j v _; rfl
  | cons a l ih =>
    intro i j v hij
    cases i with
    | zero =>
      cases j with
      | zero => exact absurd rfl hij
      | succ m => rfl
    | succ n =>
      cases j with
      | zero => rfl
      | succ m =>
        have := ih n m v (by omega)
        simpa [bitAt] using this

theorem bitAt_replicate_false : ∀ (n i : Nat),
    bitAt (List.replicate n false) i = false := by
  intro n
  induction n with
  | zero => intro i; rfl
  | succ n ih =>
    intro i
    cases i with
    | zero => rfl
    | succ m =>
      show bitAt (List.replicate n false) m = false
      exact ih m

theorem foldl_length_inv {β : Type} (g : List Bool → β → List Bool)
    (hg : ∀ a b, (g a b).length = a.length) :
    ∀ (l : List β) (a : List Bool), (l.foldl g a).length = a.length := by
  intro l
  induction l with
  | nil => intro a; rfl
  | cons b l ih => intro a; rw [List.foldl_cons, ih, hg]

theorem foldl_fixed_of_id {α β : Type} :
    ∀ (l : List β) (a : α), l.foldl (fun a _ => a) a = a := by
  intro l
  induction l with
  | nil => intro a; rfl
  | cons b l ih => intro a; rw [List.foldl_cons]; exact ih a

/-! ### C3: dimension setters (modelled from the spec) -/

/-- C3: `set_width(new_width)` / `set_height(new_height)` update the named
dimension, recompute `size = width * height`, and leave the cell buffer
all-Dead at the new size regardless of prior contents; repeated calls with
the same value are idempotent. -/
theorem set_dimensions_reset (u : Universe) (w h : Nat) :
    ((u.set_width w).width = w ∧ (u.set_width w).height = u.height ∧
      (u.set_width w).size = (u.set_width w).width * (u.set_width w).height ∧
      (u.set_width w).cells = List.replicate (u.set_width w).size DEAD_CELL ∧
      (u.set_width w).set_width w = u.set_width w) ∧
    ((u.set_height h).height = h ∧ (u.set_height h).width = u.width ∧
      (u.set_height h).size = (u.set_height h).width * (u.set_height h).height ∧
      (u.set_height h).cells = List.replicate (u.set_height h).size DEAD_CELL ∧
      (u.set_height h).set_height h = u.set_height h) :=
  ⟨⟨rfl, rfl, rfl, rfl, rfl⟩, ⟨rfl, rfl, rfl, rfl, rfl⟩⟩

/-! ### C7: clear -/

theorem set_false_replicate : ∀ (n i : Nat),
    (List.replicate n false).set i false = List.replicate n false := by
  intro n
  induction n with
  | zero => intro i; rfl
  | succ n ih =>
    intro i
    cases i with
    | zero => rfl
    | succ m =>
      show false :: (List.replicate n false).set m false = false :: List.replicate n false
      rw [ih m]

theorem clear_cells (u : Universe) :
    u.clear.cells = List.replicate u.size false := by
  show (List.range u.size).foldl (fun next i => next.set i DEAD_CELL)
      (List.replicate u.size false) = List.replicate u.size false
  have key : ∀ (l : List Nat),
      l.foldl (fun next i => next.set i DEAD_CELL) (List.replicate u.size false)
        = List.replicate u.size false := by
    intro l
    induction l with
    | nil => rfl
    | cons i l ih =>
      have hset : (List.replicate u.size false).set i DEAD_CELL
          = List.replicate u.size false := set_false_replicate u.size i
      rw [List.foldl_cons, hset, ih]
  exact key _

/-- C7: `clear()` sets every cell to Dead while leaving the dimensions
unchanged, and it is idempotent. -/
theorem clear_all_dead_idempotent (u : Universe) :
    u.clear.width = u.width ∧ u.clear.height = u.height ∧
    u.clear.cells = List.replicate u.size false ∧
    (∀ i, bitAt u.clear.cells i = DEAD_CELL) ∧
    u.clear.clear = u.clear := by
  refine ⟨rfl, rfl, clear_cells u, ?_, ?_⟩
  · intro i
    rw [clear_cells u]
    exact bitAt_replicate_false u.size i
  · cases u with
    | mk w h cells size => simp only [Universe.clear]

/-! ### C2: rendering -/

/-- C2 (code bug witness): the `fmt::Display` impl iterates
`self.cells.as_slice().chunks(self.width)` — machine *words* of the
bitset, not cells — emitting one glyph per word.  On a 2×2 all-Dead grid
(`clear()` of a 2×2 universe) the four cells fit one word, so `render()`
is `"◻\n"`, not the `"◻◻\n◻◻\n"` the spec requires (one glyph per cell,
`height` lines of `width` glyphs each). -/
theorem render_block_granularity :
    (Universe.clear ⟨2, 2, [true, true, true, true], 4⟩).render = some "◻\n" ∧
    (Universe.clear ⟨2, 2, [true, true, true, true], 4⟩).render ≠
      some "◻◻\n◻◻\n" := by
  constructor
  · rfl
  · decide

/-! ### C5: zero dimensions -/

/-- C5 counterexample: on a universe with `width = 0` (here height 2,
empty buffer) `render()` hits `slice::chunks(0)`, which panics
unconditionally (modelled by `none`) — it is not a panic-free no-op as the
claim states. -/
theorem render_zero_width_counterexample :
    (Universe.render ⟨0, 2, [], 0⟩) = none := by
  rfl

/-- C5 (amended): when `width = 0` or `height = 0`, `tick()` is a no-op
(its loops run zero iterations, so the neighbour-count modulo is never
reached and nothing panics); `render()` is a no-op producing `""` as long
as `width > 0` (a `height = 0` grid has an empty word slice), but for
`width = 0` it panics in `slice::chunks(0)` (see the counterexample). -/
theorem zero_dim_no_op (u : Universe)
    (h0 : u.width = 0 ∨ u.height = 0)
    (hlen : u.cells.length = u.width * u.height) :
    u.tick = u ∧ (0 < u.width → u.render = some "") := by
  obtain ⟨w, h, cells, size⟩ := u
  rcases h0 with hw | hh
  · subst hw
    constructor
    · show Universe.mk _ _ _ _ = _
      simp only [Universe.tick, List.range_zero, List.foldl_nil]
      rw [foldl_fixed_of_id]
    · intro hlt
      simp at hlt
  · subst hh
    have hnil : cells = [] := by
      simp only [Nat.mul_zero] at hlen
      exact List.eq_nil_of_length_eq_zero hlen
    subst hnil
    constructor
    · show Universe.mk _ _ _ _ = _
      simp only [Universe.tick, List.range_zero, List.foldl_nil]
    · intro hlt
      show Universe.render ⟨w, 0, [], size⟩ = some ""
      unfold Universe.render
      rw [if_neg (by omega)]
      rfl

theorem zero_dim_no_op_witness :
    Universe.tick ⟨3, 0, [], 0⟩ = ⟨3, 0, [], 0⟩ ∧
    Universe.render ⟨3, 0, [], 0⟩ = some "" := by
  have h := zero_dim_no_op ⟨3, 0, [], 0⟩ (Or.inr rfl) (by decide)
  exact ⟨h.1, h.2 (by decide)⟩

/-! ### C10 / C4 / C8 helpers: toggling and drawing -/

theorem index_lt_size (r c w h : Nat) (hr : r < h) (hc : c < w) :
    r * w + c < w * h := by
  have h1 : r + 1 ≤ h := hr
  have h2 : (r + 1) * w ≤ h * w := Nat.mul_le_mul_right w h1
  have h3 : r * w + w = (r + 1) * w := (Nat.succ_mul r w).symm
  have h4 : h * w = w * h := Nat.mul_comm h w
  omega

theorem toggleCell_of_lt (u : Universe) (row col : Nat)
    (h : u.get_index row col < u.cells.length) :
    u.toggleCell row col = some { u with cells :=
      (u.cells.set (u.get_index row col)
        (toggle (bitAt u.cells (u.get_index row col)))) } := by
  simp [Universe.toggleCell, h]

/-! ### C10: unchecked linear indexing -/

/-- C10: a coordinate pair with `col ≥ width` whose linear index
`row * width + col` is still inside the buffer is not rejected: `draw`
(via the private `toggle`) and `set_cells` silently modify the cell at
that linear index. -/
theorem out_of_range_col_silent (u : Universe) (row col : Nat)
    (hlen : u.cells.length = u.width * u.height) (hcol : u.width ≤ col)
    (hidx : row * u.width + col < u.width * u.height) :
    u.draw [[row, col]] = some { u with cells :=
      (u.cells.set (row * u.width + col)
        (toggle (bitAt u.cells (row * u.width + col)))) } ∧
    u.set_cells [(row, col)] = some { u with cells :=
      (u.cells.set (row * u.width + col) ALIVE_CELL) } := by
  have hi : u.get_index row col < u.cells.length := by
    show row * u.width + col < _
    omega
  constructor
  · simp [Universe.draw, toggleCell_of_lt u row col hi, Universe.get_index]
  · simp only [Universe.set_cells, List.foldlM_cons, List.foldlM_nil]
    have hi' : (⟨row, col⟩ : Nat × Nat).1 * u.width + (⟨row, col⟩ : Nat × Nat).2
        < u.cells.length := hi
    simp [Universe.get_index, hi']

theorem out_of_range_col_silent_witness :
    Universe.draw ⟨2, 2, [false, false, false, false], 4⟩ [[0, 3]] =
      some ⟨2, 2, [false, false, false, true], 4⟩ ∧
    Universe.set_cells ⟨2, 2, [false, false, false, false], 4⟩ [(0, 3)] =
      some ⟨2, 2, [false, false, false, true], 4⟩ := by
  have h := out_of_range_col_silent ⟨2, 2, [false, false, false, false], 4⟩ 0 3
    (by decide) (by decide) (by decide)
  exact ⟨h.1.trans (by decide), h.2.trans (by decide)⟩

/-! ### C4: malformed draw input -/

/-- C4 counterexample: a wrong-arity entry `[0]` makes `draw` panic at the
unchecked `p[1]` (after `serde_wasm_bindgen::from_value(..).unwrap()`);
no caller-visible descriptive error is produced — the call crashes
(modelled by `none`), refuting the claim that `draw` surfaces an
"invalid coordinate"-style error instead of crashing. -/
theorem draw_no_error_counterexample :
    Universe.draw ⟨2, 2, [false, false, false, false], 4⟩ [[0]] = none := by
  decide

/-- C4 (amended): `draw` performs no validation.  A wrong-arity entry
(length 0 or 1) panics at the unchecked index into the pair; an entry
whose linear index `row * width + col` falls outside the buffer panics
inside `FixedBitSet::set`; entries of length ≥ 2 whose linear index is in
bounds all succeed (components beyond the first two are silently
ignored).  Panics are modelled by `none`. -/
theorem draw_malformed_panics (u : Universe) (row col : Nat)
    (rest map : List (List Nat)) :
    u.draw ([] :: rest) = none ∧
    u.draw ([row] :: rest) = none ∧
    (u.cells.length ≤ row * u.width + col → u.draw ([row, col] :: rest) = none) ∧
    ((∀ p ∈ map, 2 ≤ p.length ∧ p.getD 0 0 * u.width + p.getD 1 0 < u.cells.length) →
      ∃ u', u.draw map = some u') := by
  refine ⟨?_, ?_, ?_, ?_⟩
  · simp [Universe.draw, List.foldlM_cons]
  · simp [Universe.draw, List.foldlM_cons]
  · intro hle
    have hnone : u.toggleCell row col = none := by
      have : ¬ u.get_index row col < u.cells.length := by
        show ¬ row * u.width + col < _
        omega
      simp [Universe.toggleCell, this]
    simp [Universe.draw, List.foldlM_cons, hnone]
  · induction map generalizing u with
    | nil => intro _; exact ⟨u, rfl⟩
    | cons p ps ih =>
      intro hall
      obtain ⟨hlen2, hidx⟩ := hall p (List.mem_cons_self p ps)
      obtain ⟨a, b, t, rfl⟩ : ∃ a b t, p = a :: b :: t := by
        cases p with
        | nil => simp at hlen2
        | cons a q =>
          cases q with
          | nil => simp at hlen2
          | cons b t => exact ⟨a, b, t, rfl⟩
      have hi : u.get_index a b < u.cells.length := by
        simpa [Universe.get_index] using hidx
      have ht := toggleCell_of_lt u a b hi
      obtain ⟨u', hu'⟩ := ih { u with cells := (u.cells.set (u.get_index a b)
          (toggle (bitAt u.cells (u.get_index a b)))) } (by
        intro q hq
        obtain ⟨h1, h2⟩ := hall q (List.mem_cons_of_mem _ hq)
        refine ⟨h1, ?_⟩
        show q.getD 0 0 * u.width + q.getD 1 0 < (u.cells.set _ _).length
        rw [List.length_set]
        exact h2)
      refine ⟨u', ?_⟩
      show ((a :: b :: t) :: ps).foldlM _ u = some u'
      rw [List.foldlM_cons]
      have hf : (do
          let r ← (a :: b :: t).get? 0
          let c ← (a :: b :: t).get? 1
          u.toggleCell r c) = some { u with cells := (u.cells.set (u.get_index a b)
            (toggle (bitAt u.cells (u.get_index a b)))) } := by
        simpa using ht
      rw [hf]
      exact hu'

theorem draw_malformed_panics_witness :
    Universe.draw ⟨2, 2, [false, false, false, false], 4⟩ [[]] = none ∧
    Universe.draw ⟨2, 2, [false, false, false, false], 4⟩ [[1]] = none ∧
    Universe.draw ⟨2, 2, [false, false, false, false], 4⟩ [[1, 3]] = none ∧
    ∃ u', Universe.draw ⟨2, 2, [false, false, false, false], 4⟩ [[0, 1], [1, 1]]
      = some u' := by
  have h := draw_malformed_panics ⟨2, 2, [false, false, false, false], 4⟩ 1 3
    [] [[0, 1], [1, 1]]
  exact ⟨h.1, h.2.1, h.2.2.1 (by decide), h.2.2.2 (by decide)⟩

/-! ### C6: toroidal wraparound -/

theorem foldl_add_mono {β : Type} (g : Nat → β → Nat) (hg : ∀ a b, a ≤ g a b) :
    ∀ (l : List β) (a : Nat), a ≤ l.foldl g a := by
  intro l
  induction l with
  | nil => intro a; exact Nat.le_refl a
  | cons b l ih =>
    intro a
    rw [List.foldl_cons]
    exact Nat.le_trans (hg a b) (ih (g a b))

/-- C6: whenever the corner cell `(height-1, width-1)` is alive, the
neighbour count computed for `(0, 0)` is at least 1 — the toroidal
wraparound reaches the opposite corner. -/
theorem corner_neighbour_wraparound (u : Universe)
    (hw : 1 ≤ u.width) (hh : 1 ≤ u.height)
    (hc : bitAt u.cells ((u.height - 1) * u.width + (u.width - 1)) = true) :
    1 ≤ u.live_neighbour_count 0 0 := by
  obtain ⟨w, h, cells, size⟩ := u
  simp only at hw hh hc
  by_cases hone : h = 1 ∧ w = 1
  · obtain ⟨rfl, rfl⟩ := hone
    simp only [Nat.mul_one, Nat.sub_self, Nat.zero_add] at hc
    simp [Universe.live_neighbour_count, Universe.get_index, hc]
  · -- the very first visited pair (height-1, width-1) is not skipped and
    -- reads exactly the far corner; the remaining steps only add
    set u : Universe := ⟨w, h, cells, size⟩ with hu
    have hstep : ∀ (c dr dc : Nat), 1 ≤ c → 1 ≤ lncStep u 0 0 c dr dc := by
      intro c dr dc h1
      unfold lncStep
      split
      · exact h1
      · omega
    have h0 : 1 ≤ lncStep u 0 0 0 (u.height - 1) (u.width - 1) := by
      have hcond : ¬(u.height - 1 = 0 ∧ u.width - 1 = 0) := by
        show ¬(h - 1 = 0 ∧ w - 1 = 0)
        omega
      unfold lncStep
      rw [if_neg hcond]
      unfold lncTerm
      have e1 : (0 + (u.height - 1)) % u.height = u.height - 1 := by
        rw [Nat.zero_add]
        exact Nat.mod_eq_of_lt (by show h - 1 < h; omega)
      have e2 : (0 + (u.width - 1)) % u.width = u.width - 1 := by
        rw [Nat.zero_add]
        exact Nat.mod_eq_of_lt (by show w - 1 < w; omega)
      rw [e1, e2]
      show 1 ≤ 0 + (bitAt u.cells ((u.height - 1) * u.width + (u.width - 1))).toNat
      rw [show bitAt u.cells ((u.height - 1) * u.width + (u.width - 1)) = true from hc]
      exact Nat.le_refl 1
    show 1 ≤
      lncStep u 0 0 (lncStep u 0 0 (lncStep u 0 0 (lncStep u 0 0 (lncStep u 0 0
        (lncStep u 0 0 (lncStep u 0 0 (lncStep u 0 0 (lncStep u 0 0 0
          (u.height - 1) (u.width - 1)) (u.height - 1) 0) (u.height - 1) 1)
        0 (u.width - 1)) 0 0) 0 1) 1 (u.width - 1)) 1 0) 1 1
    exact hstep _ _ _ (hstep _ _ _ (hstep _ _ _ (hstep _ _ _ (hstep _ _ _
      (hstep _ _ _ (hstep _ _ _ (hstep _ _ _ h0)))))))

theorem corner_neighbour_wraparound_witness :
    1 ≤ Universe.live_neighbour_count ⟨1, 1, [true], 1⟩ 0 0 :=
  corner_neighbour_wraparound ⟨1, 1, [true], 1⟩ (by decide) (by decide) (by decide)

/-! ### C9: buffer-length invariant -/

theorem foldlM_option_inv {β : Type} (P : Universe → Prop)
    (f : Universe → β → Option Universe)
    (hf : ∀ a b a', P a → f a b = some a' → P a') :
    ∀ (l : List β) (a a' : Universe), P a → l.foldlM f a = some a' → P a' := by
  intro l
  induction l with
  | nil =>
    intro a a' hp h
    rw [List.foldlM_nil] at h
    cases h
    exact hp
  | cons b l ih =>
    intro a a' hp h
    rw [List.foldlM_cons] at h
    cases hfa : f a b with
    | none => rw [hfa] at h; cases h
    | some a1 =>
      rw [hfa] at h
      exact ih a1 a' (hf a b a1 hp hfa) h

theorem seed_cells_length (size : Nat) (rng : Nat → Bool) :
    (seed_cells size rng).length = size := by
  simp [seed_cells]

theorem tick_cells_length (u : Universe) :
    u.tick.cells.length = u.cells.length := by
  show ((List.range u.height).foldl _ u.cells).length = u.cells.length
  refine foldl_length_inv _ ?_ _ _
  intro a r
  refine foldl_length_inv _ ?_ _ _
  intro a' c
  exact List.length_set a' _ _

theorem reachable_inv (u : Universe) (h : Reachable u) : UniverseInv u := by
  induction h with
  | new_ rng =>
    constructor
    · simp [Universe.new, seed_cells]
    · rfl
  | tick_ _ ih =>
    obtain ⟨h1, h2⟩ := ih
    exact ⟨(tick_cells_length _).trans h1, h2⟩
  | clear_ _ ih =>
    obtain ⟨h1, h2⟩ := ih
    refine ⟨?_, h2⟩
    show _ = _
    rw [show (Universe.clear _).cells = _ from clear_cells _]
    rw [List.length_replicate]
    exact h2
  | reset_ rng _ ih =>
    obtain ⟨h1, h2⟩ := ih
    exact ⟨(seed_cells_length _ _).trans h2, h2⟩
  | draw_ _ hd ih =>
    refine foldlM_option_inv UniverseInv _ ?_ _ _ _ ih hd
    intro a p a' hp hstep
    cases hg0 : p.get? 0 with
    | none => rw [hg0] at hstep; cases hstep
    | some r =>
      rw [hg0] at hstep
      cases hg1 : p.get? 1 with
      | none => rw [hg1] at hstep; cases hstep
      | some c =>
        rw [hg1] at hstep
        have hstep2 : (if a.get_index r c < a.cells.length then
            some { a with cells := (a.cells.set (a.get_index r c)
              (toggle (bitAt a.cells (a.get_index r c)))) }
          else none) = some a' := hstep
        split at hstep2
        · cases hstep2
          obtain ⟨h1, h2⟩ := hp
          exact ⟨(List.length_set _ _ _).trans h1, h2⟩
        · cases hstep2
  | set_cells_ _ hs ih =>
    refine foldlM_option_inv UniverseInv _ ?_ _ _ _ ih hs
    intro a rc a' hp hstep
    have hstep2 : (if a.get_index rc.1 rc.2 < a.cells.length then
        some { a with cells := (a.cells.set (a.get_index rc.1 rc.2) ALIVE_CELL) }
      else none) = some a' := hstep
    split at hstep2
    · cases hstep2
      obtain ⟨h1, h2⟩ := hp
      exact ⟨(List.length_set _ _ _).trans h1, h2⟩
    · cases hstep2

/-- C9: every state reachable from construction through `tick`, `clear`,
`reset`, `draw` and `set_cells` has a cell buffer of length exactly
`width * height`. -/
theorem cells_length_invariant (u : Universe) (h : Reachable u) :
    u.cells.length = u.width * u.height :=
  (reachable_inv u h).1

theorem cells_length_invariant_witness :
    (Universe.new (fun _ => false)).cells.length =
      (Universe.new (fun _ => false)).width * (Universe.new (fun _ => false)).height :=
  cells_length_invariant _ (Reachable.new_ _)

/-! ### C8: draw toggle parity -/

theorem index_inj (w r c r' c' : Nat) (hc : c < w) (hc' : c' < w)
    (he : r * w + c = r' * w + c') : r = r' ∧ c = c' := by
  have hr : r = r' := by
    rcases Nat.lt_trichotomy r r' with h | h | h
    · exfalso
      have h2 : (r + 1) * w ≤ r' * w := Nat.mul_le_mul_right w h
      have h3 : r * w + w = (r + 1) * w := (Nat.succ_mul r w).symm
      omega
    · exact h
    · exfalso
      have h2 : (r' + 1) * w ≤ r * w := Nat.mul_le_mul_right w h
      have h3 : r' * w + w = (r' + 1) * w := (Nat.succ_mul r' w).symm
      omega
  subst hr
  exact ⟨rfl, by omega⟩

/-- C8: for in-range coordinate pairs, `draw` toggles each named cell in
order, so a cell ends up flipped exactly when its number of occurrences in
the list is odd, and cells not named are unchanged. -/
theorem draw_toggle_parity (u : Universe) (ps : List (Nat × Nat))
    (hlen : u.cells.length = u.width * u.height)
    (hin : ∀ p ∈ ps, p.1 < u.height ∧ p.2 < u.width) :
    ∃ u', u.draw (ps.map (fun p => [p.1, p.2])) = some u' ∧
      u'.width = u.width ∧ u'.height = u.height ∧
      ∀ row col, row < u.height → col < u.width →
        bitAt u'.cells (row * u.width + col) =
          (if ps.count (row, col) % 2 = 1 then
            !(bitAt u.cells (row * u.width + col))
          else bitAt u.cells (row * u.width + col)) := by
  induction ps generalizing u with
  | nil =>
    refine ⟨u, rfl, rfl, rfl, ?_⟩
    intro row col _ _
    simp
  | cons p ps ih =>
    obtain ⟨hp1, hp2⟩ := hin p (List.mem_cons_self p ps)
    have hi : u.get_index p.1 p.2 < u.cells.length := by
      show p.1 * u.width + p.2 < u.cells.length
      rw [hlen]
      exact index_lt_size p.1 p.2 u.width u.height hp1 hp2
    obtain ⟨u1, htog, hw1, hh1, hc1⟩ : ∃ u1, u.toggleCell p.1 p.2 = some u1 ∧
        u1.width = u.width ∧ u1.height = u.height ∧
        u1.cells = u.cells.set (u.get_index p.1 p.2)
          (toggle (bitAt u.cells (u.get_index p.1 p.2))) :=
      ⟨_, toggleCell_of_lt u p.1 p.2 hi, rfl, rfl, rfl⟩
    have hlen1 : u1.cells.length = u1.width * u1.height := by
      rw [hc1, List.length_set, hw1, hh1]
      exact hlen
    have hin1 : ∀ q ∈ ps, q.1 < u1.height ∧ q.2 < u1.width := by
      intro q hq
      rw [hh1, hw1]
      exact hin q (List.mem_cons_of_mem _ hq)
    obtain ⟨u', hdraw, hw, hh, hbits⟩ := ih u1 hlen1 hin1
    refine ⟨u', ?_, hw.trans hw1, hh.trans hh1, ?_⟩
    · show (u.toggleCell p.1 p.2 >>= fun v =>
        v.draw (ps.map (fun q => [q.1, q.2]))) = some u'
      rw [htog]
      exact hdraw
    · intro row col hr hc
      have hb := hbits row col (by rw [hh1]; exact hr) (by rw [hw1]; exact hc)
      rw [hw1, hc1] at hb
      by_cases hpq : p = (row, col)
      · subst hpq
        have hidx : u.get_index (row, col).1 (row, col).2 = row * u.width + col := rfl
        rw [hidx] at hb
        have hlt : row * u.width + col < u.cells.length := by
          rw [hlen]
          exact index_lt_size row col u.width u.height hr hc
        have hself : bitAt (u.cells.set (row * u.width + col)
            (toggle (bitAt u.cells (row * u.width + col)))) (row * u.width + col) =
            !(bitAt u.cells (row * u.width + col)) := by
          rw [bitAt_set_self _ _ _ hlt, toggle_eq_not]
        rw [hself] at hb
        rw [List.count_cons_self]
        rcases Nat.mod_two_eq_zero_or_one (ps.count (row, col)) with hk | hk
        · rw [if_neg (by omega)] at hb
          rw [if_pos (by omega)]
          exact hb
        · rw [if_pos (by omega)] at hb
          rw [if_neg (by omega), hb, Bool.not_not]
      · have hne : u.get_index p.1 p.2 ≠ row * u.width + col := by
          show p.1 * u.width + p.2 ≠ row * u.width + col
          intro he
          obtain ⟨h1', h2'⟩ := index_inj u.width p.1 p.2 row col hp2 hc he
          exact hpq (Prod.ext_iff.mpr ⟨h1', h2'⟩)
        have hother : bitAt (u.cells.set (u.get_index p.1 p.2)
            (toggle (bitAt u.cells (u.get_index p.1 p.2)))) (row * u.width + col) =
            bitAt u.cells (row * u.width + col) :=
          bitAt_set_ne _ _ _ _ hne
        rw [hother] at hb
        have hcnt : (p :: ps).count (row, col) = ps.count (row, col) := by
          rw [List.count_cons]
          have hne2 : ¬((row, col) = p) := fun he => hpq he.symm
          simp [hne2, hpq]
        rw [hcnt]
        exact hb

theorem draw_toggle_parity_witness :
    ∃ u', Universe.draw ⟨2, 2, [false, false, false, false], 4⟩
        (([((0 : Nat), (1 : Nat)), (0, 1), (1, 0)]).map (fun p => [p.1, p.2]))
          = some u' ∧
      u'.width = 2 ∧ u'.height = 2 ∧
      ∀ row col, row < 2 → col < 2 →
        bitAt u'.cells (row * 2 + col) =
          (if ([((0 : Nat), (1 : Nat)), (0, 1), (1, 0)]).count (row, col) % 2 = 1 then
            !(bitAt [false, false, false, false] (row * 2 + col))
          else bitAt [false, false, false, false] (row * 2 + col)) :=
  draw_toggle_parity ⟨2, 2, [false, false, false, false], 4⟩
    [(0, 1), (0, 1), (1, 0)] (by decide) (by decide)

/-! ### C1: the tick rule -/

theorem tick_inner_bitAt_miss (u : Universe) (r i : Nat) :
    ∀ (n : Nat) (acc : List Bool), (∀ c, c < n → u.get_index r c ≠ i) →
      bitAt ((List.range n).foldl (fun next col =>
        next.set (u.get_index r col)
          (next_cell (bitAt u.cells (u.get_index r col))
            (u.live_neighbour_count r col))) acc) i = bitAt acc i := by
  intro n
  induction n with
  | zero => intro acc _; rfl
  | succ n ih =>
    intro acc hmiss
    simp only [List.range_succ, List.foldl_append, List.foldl_cons, List.foldl_nil]
    rw [bitAt_set_ne _ _ _ _ (hmiss n (by omega))]
    exact ih acc (fun c hc => hmiss c (by omega))

theorem tick_inner_bitAt_hit (u : Universe) (r c0 : Nat) :
    ∀ (n : Nat) (acc : List Bool), c0 < n → u.get_index r c0 < acc.length →
      (∀ c, c0 < c → c < n → u.get_index r c ≠ u.get_index r c0) →
      bitAt ((List.range n).foldl (fun next col =>
        next.set (u.get_index r col)
          (next_cell (bitAt u.cells (u.get_index r col))
            (u.live_neighbour_count r col))) acc) (u.get_index r c0)
        = next_cell (bitAt u.cells (u.get_index r c0))
            (u.live_neighbour_count r c0) := by
  intro n
  induction n with
  | zero => intro acc h _ _; exact absurd h (Nat.not_lt_zero c0)
  | succ n ih =>
    intro acc hc0 hlt hmiss
    simp only [List.range_succ, List.foldl_append, List.foldl_cons, List.foldl_nil]
    rcases Nat.lt_or_ge c0 n with h | h
    · rw [bitAt_set_ne _ _ _ _ (hmiss n h (by omega))]
      exact ih acc h hlt (fun c h1 h2 => hmiss c h1 (by omega))
    · have hc0n : c0 = n := by omega
      subst hc0n
      have hXlen : ((List.range c0).foldl (fun next col =>
          next.set (u.get_index r col)
            (next_cell (bitAt u.cells (u.get_index r col))
              (u.live_neighbour_count r col))) acc).length = acc.length :=
        foldl_length_inv _ (fun a b => List.length_set a _ _) _ acc
      rw [bitAt_set_self _ _ _ (by rw [hXlen]; exact hlt)]

theorem tick_outer_bitAt (u : Universe) (r0 c0 : Nat)
    (hlen : u.cells.length = u.width * u.height)
    (hr0h : r0 < u.height) (hc0 : c0 < u.width) :
    ∀ (n : Nat) (acc : List Bool), r0 < n → acc.length = u.cells.length →
      bitAt ((List.range n).foldl (fun next row =>
        (List.range u.width).foldl (fun next col =>
          next.set (u.get_index row col)
            (next_cell (bitAt u.cells (u.get_index row col))
              (u.live_neighbour_count row col))) next) acc) (u.get_index r0 c0)
        = next_cell (bitAt u.cells (u.get_index r0 c0))
            (u.live_neighbour_count r0 c0) := by
  intro n
  induction n with
  | zero => intro acc h _; exact absurd h (Nat.not_lt_zero r0)
  | succ n ih =>
    intro acc hr0 hacc
    simp only [List.range_succ, List.foldl_append, List.foldl_cons, List.foldl_nil]
    rcases Nat.lt_or_ge r0 n with h | h
    · have hmiss : ∀ c, c < u.width → u.get_index n c ≠ u.get_index r0 c0 := by
        intro c hcw he
        obtain ⟨h1, _⟩ := index_inj u.width n c r0 c0 hcw hc0 he
        omega
      rw [tick_inner_bitAt_miss u n (u.get_index r0 c0) u.width _ hmiss]
      exact ih acc h hacc
    · have hr0n : r0 = n := by omega
      subst hr0n
      refine tick_inner_bitAt_hit u r0 c0 u.width _ hc0 ?_ ?_
      · have houtlen : ((List.range r0).foldl (fun next row =>
            (List.range u.width).foldl (fun next col =>
              next.set (u.get_index row col)
                (next_cell (bitAt u.cells (u.get_index row col))
                  (u.live_neighbour_count row col))) next) acc).length
            = acc.length :=
          foldl_length_inv _
            (fun a b => foldl_length_inv _ (fun a2 b2 => List.length_set a2 _ _) _ a) _ acc
      -- the write target is inside the current buffer
        rw [houtlen, hacc, hlen]
        show r0 * u.width + c0 < u.width * u.height
        exact index_lt_size r0 c0 u.width u.height hr0h hc0
      · intro c h1 h2 he
        obtain ⟨_, h4⟩ := index_inj u.width r0 c r0 c0 h2 hc0 he
        omega

theorem tick_bitAt (u : Universe) (r0 c0 : Nat)
    (hlen : u.cells.length = u.width * u.height)
    (hr : r0 < u.height) (hc : c0 < u.width) :
    bitAt u.tick.cells (u.get_index r0 c0) =
      next_cell (bitAt u.cells (u.get_index r0 c0))
        (u.live_neighbour_count r0 c0) :=
  tick_outer_bitAt u r0 c0 hlen hr hc u.height u.cells hr rfl

theorem live_count_eq_claim (u : Universe) (row col : Nat)
    (hh : 2 ≤ u.height) (hw : 2 ≤ u.width) :
    u.live_neighbour_count row col = claim_neighbour_count u row col := by
  have h1 : u.height - 1 ≠ 0 := by omega
  have h2 : u.width - 1 ≠ 0 := by omega
  show
    lncStep u row col (lncStep u row col (lncStep u row col (lncStep u row col
      (lncStep u row col (lncStep u row col (lncStep u row col (lncStep u row col
        (lncStep u row col 0 (u.height - 1) (u.width - 1)) (u.height - 1) 0)
        (u.height - 1) 1) 0 (u.width - 1)) 0 0) 0 1) 1 (u.width - 1)) 1 0) 1 1
    = 0 + lncTerm u row col (u.height - 1) (u.width - 1)
        + lncTerm u row col (u.height - 1) 0
        + lncTerm u row col (u.height - 1) 1
        + lncTerm u row col 0 (u.width - 1)
        + lncTerm u row col 0 1
        + lncTerm u row col 1 (u.width - 1)
        + lncTerm u row col 1 0
        + lncTerm u row col 1 1
  simp [lncStep, h1, h2]

/-- C1 counterexample: on the 1×4 universe whose only live cell is
`(0, 0)`, the neighbour count of the code for `(0, 0)` is 1 (the collapsed
delta list `[height-1, 0, 1] = [0, 0, 1]` skips the pair `(0, 0)` twice),
so the cell dies, while the 8-toroidal-neighbour count of the claim
(`row ± 1 mod 1`, `col ± 1 mod 4`) is 2, which would keep it alive.  The
post-tick cell therefore differs from the rule applied to the claim's
count. -/
theorem tick_rule_counterexample :
    bitAt (Universe.tick ⟨4, 1, [true, false, false, false], 4⟩).cells
        (Universe.get_index ⟨4, 1, [true, false, false, false], 4⟩ 0 0) ≠
      next_cell (bitAt (⟨4, 1, [true, false, false, false], 4⟩ : Universe).cells
          (Universe.get_index ⟨4, 1, [true, false, false, false], 4⟩ 0 0))
        (claim_neighbour_count ⟨4, 1, [true, false, false, false], 4⟩ 0 0) := by
  decide

/-- C1 (amended): for every universe with `width ≥ 2` and `height ≥ 2`
and a well-formed buffer, the cell at any in-range `(row, col)` after
`tick()` equals the standard rule applied to the pre-tick cell and the
count of Alive cells among its 8 toroidal neighbours (taken with
multiplicity, the `(0,0)` delta excluded); all values are computed from
the old buffer only.  (For `width = 1` or `height = 1` the code's
collapsed delta list counts differently — see the counterexample.) -/
theorem tick_follows_rule (u : Universe) (row col : Nat)
    (hw : 2 ≤ u.width) (hh : 2 ≤ u.height)
    (hlen : u.cells.length = u.width * u.height)
    (hr : row < u.height) (hc : col < u.width) :
    bitAt u.tick.cells (u.get_index row col) =
      next_cell (bitAt u.cells (u.get_index row col))
        (claim_neighbour_count u row col) := by
  rw [← live_count_eq_claim u row col hh hw]
  exact tick_bitAt u row col hlen hr hc

theorem tick_follows_rule_witness :
    bitAt (Universe.tick ⟨2, 2, [true, true, false, false], 4⟩).cells
        (Universe.get_index ⟨2, 2, [true, true, false, false], 4⟩ 0 0) =
      next_cell (bitAt (⟨2, 2, [true, true, false, false], 4⟩ : Universe).cells
          (Universe.get_index ⟨2, 2, [true, true, false, false], 4⟩ 0 0))
        (claim_neighbour_count ⟨2, 2, [true, true, false, false], 4⟩ 0 0) :=
  tick_follows_rule ⟨2, 2, [true, true, false, false], 4⟩ 0 0
    (by decide) (by decide) (by decide) (by decide) (by decide)
